import Mathlib

/-!
Shallow embedding of `src/recup_urbanisme.py`, a WFS harvesting script that
adaptively subdivides a bounding box into tiles so every leaf query stays
under the server's per-request feature cap, then merges and exports the
results.  Coordinates are modelled with exact rationals, a GeoDataFrame with
a column list plus a list of rows, and the network fetcher as an oracle
`Box → Option Frame` (`none` models a failed request).
-/

/-- `MAX_FEATURES = 5000`, the server's per-request cap. -/
def MAX_FEATURES : ℕ := 5000

/-- `MAX_DEPTH = 3`, the subdivision depth limit inside `process_tile`. -/
def MAX_DEPTH : ℕ := 3

/-- `TILE_DIVISION_FACTOR = 2`, the per-axis split factor. -/
def TILE_DIVISION_FACTOR : ℕ := 2

/-- A bounding box `(minx, miny, maxx, maxy)`; the script passes these as
4-tuples of coordinates. -/
structure Box where
  minx : ℚ
  miny : ℚ
  maxx : ℚ
  maxy : ℚ
deriving DecidableEq

/-- The inner/outer `while` loops of `generate_tiles`: starting from `x`,
emit the loop variable and advance by `size` while `x < maxv`.  The positivity
hypothesis is exactly what makes the Python loop terminate. -/
def genAxis (maxv size : ℚ) (hs : 0 < size) (x : ℚ) : List ℚ :=
  if x < maxv then x :: genAxis maxv size hs (x + size) else []
termination_by (⌈(maxv - x) / size⌉).toNat
decreasing_by
  rename_i h
  have hpos : 0 < ⌈(maxv - x) / size⌉ := by
    exact Int.ceil_pos.mpr (div_pos (by linarith) hs)
  have hstep : (maxv - (x + size)) / size = (maxv - x) / size - 1 := by
    field_simp
    ring
  have : ⌈(maxv - (x + size)) / size⌉ = ⌈(maxv - x) / size⌉ - 1 := by
    rw [hstep, Int.ceil_sub_one]
  omega

/-- `generate_tiles(minx, miny, maxx, maxy, size)`: x runs in the outer loop,
y in the inner one, and each yielded tile is clipped with `min` against the
area bounds. -/
def generate_tiles (minx miny maxx maxy size : ℚ) (hs : 0 < size) : List Box :=
  (genAxis maxx size hs minx).flatMap fun x =>
    (genAxis maxy size hs miny).map fun y =>
      Box.mk x y (min (x + size) maxx) (min (y + size) maxy)

/-- The value of the `x` loop variable of `generate_tiles` after `n`
iterations of the outer `while` loop (`x = minx; x += size` each round). -/
def loopVar (start size : ℚ) : ℕ → ℚ
  | 0 => start
  | n + 1 => loopVar start size n + size

/-- A (Geo)DataFrame: its ordered column labels and its rows.  Row content is
opaque (each row maps a column label to a cell value); column selection only
changes the `cols` list. -/
structure Frame where
  cols : List String
  rows : List (String → String)

/-- `cols_to_keep = ["gpu_doc_id", "partition", "nomfic", "geometry"]`. -/
def cols_to_keep : List String := ["gpu_doc_id", "partition", "nomfic", "geometry"]

/-- `gdf[available_cols]` with
`available_cols = [c for c in cols_to_keep if c in gdf.columns]`. -/
def Frame.restrictKeep (gdf : Frame) : Frame :=
  { cols := cols_to_keep.filter (fun c => c ∈ gdf.cols), rows := gdf.rows }

/-- The sub-bbox built inside `process_tile` for indices `i, j`:
`(minx + i*sx, miny + j*sy, minx + (i+1)*sx, miny + (j+1)*sy)` with
`sx = (maxx-minx)/2`, `sy = (maxy-miny)/2`. -/
def subBox (b : Box) (i j : ℕ) : Box :=
  let new_size_x := (b.maxx - b.minx) / (TILE_DIVISION_FACTOR : ℚ)
  let new_size_y := (b.maxy - b.miny) / (TILE_DIVISION_FACTOR : ℚ)
  Box.mk (b.minx + (i : ℚ) * new_size_x) (b.miny + (j : ℚ) * new_size_y)
    (b.minx + ((i : ℚ) + 1) * new_size_x) (b.miny + ((j : ℚ) + 1) * new_size_y)

/-- The four children of a tile in the order the two nested `for i / for j`
loops of `process_tile` visit them: (0,0), (0,1), (1,0), (1,1). -/
def subBoxes (b : Box) : List Box :=
  (List.range TILE_DIVISION_FACTOR).flatMap fun i =>
    (List.range TILE_DIVISION_FACTOR).map fun j => subBox b i j

/-- `process_tile(bbox, depth)` parameterized by the fetcher: a failed fetch
returns `[]`; a result under the cap, or any result at depth ≥ 3, is accepted
(restricted to the keep-list); otherwise the tile is quartered and the
children's results are concatenated. -/
def process_tile (fetch : Box → Option Frame) (bbox : Box) (depth : ℕ) : List Frame :=
  match fetch bbox with
  | none => []
  | some gdf =>
    if h : gdf.rows.length < MAX_FEATURES ∨ MAX_DEPTH ≤ depth then
      [gdf.restrictKeep]
    else
      (subBoxes bbox).flatMap fun sb => process_tile fetch sb (depth + 1)
termination_by MAX_DEPTH - depth
decreasing_by simp only [MAX_DEPTH, not_or, not_le] at *; omega

/-- Instrumentation of `process_tile`: the list of `(bbox, depth)` arguments
of every `get_features` call it performs, in call order. -/
def fetchCalls (fetch : Box → Option Frame) (bbox : Box) (depth : ℕ) : List (Box × ℕ) :=
  (bbox, depth) ::
    (match fetch bbox with
     | none => []
     | some gdf =>
       if h : gdf.rows.length < MAX_FEATURES ∨ MAX_DEPTH ≤ depth then []
       else (subBoxes bbox).flatMap fun sb => fetchCalls fetch sb (depth + 1))
termination_by MAX_DEPTH - depth
decreasing_by simp only [MAX_DEPTH, not_or, not_le] at *; omega

/-- Instrumentation of `process_tile`: every accepted RecordSet paired with
the depth at which its fetch was accepted. -/
def acceptedSets (fetch : Box → Option Frame) (bbox : Box) (depth : ℕ) : List (Frame × ℕ) :=
  match fetch bbox with
  | none => []
  | some gdf =>
    if h : gdf.rows.length < MAX_FEATURES ∨ MAX_DEPTH ≤ depth then
      [(gdf.restrictKeep, depth)]
    else
      (subBoxes bbox).flatMap fun sb => acceptedSets fetch sb (depth + 1)
termination_by MAX_DEPTH - depth
decreasing_by simp only [MAX_DEPTH, not_or, not_le] at *; omega

/-- Observable events of a run: a `get_features` call, or a `time.sleep(1)`. -/
inductive Ev where
  | fetchEv : Box → Ev
  | sleepEv : Ev
deriving DecidableEq

/-- The event trace of `process_tile`: one fetch per visited tile, no sleep
anywhere inside the recursion. -/
def tileTrace (fetch : Box → Option Frame) (bbox : Box) (depth : ℕ) : List Ev :=
  Ev.fetchEv bbox ::
    (match fetch bbox with
     | none => []
     | some gdf =>
       if h : gdf.rows.length < MAX_FEATURES ∨ MAX_DEPTH ≤ depth then []
       else (subBoxes bbox).flatMap fun sb => tileTrace fetch sb (depth + 1))
termination_by MAX_DEPTH - depth
decreasing_by simp only [MAX_DEPTH, not_or, not_le] at *; omega

/-- One iteration of the harvest loop: run `process_tile` on the tile and
append every returned `gdf` with `len(gdf) > 0` to `all_features`, adding its
length to `total_collected`. -/
def collectStep (fetch : Box → Option Frame) (st : List Frame × ℕ) (bbox : Box) :
    List Frame × ℕ :=
  (process_tile fetch bbox 0).foldl
    (fun s gdf =>
      if 0 < gdf.rows.length then (s.1 ++ [gdf], s.2 + gdf.rows.length) else s) st

/-- The harvest loop over the initial tiles, starting from empty
`all_features` and `total_collected = 0`; returns the final pair. -/
def harvest (fetch : Box → Option Frame) (tiles : List Box) : List Frame × ℕ :=
  tiles.foldl (collectStep fetch) ([], 0)

/-- The event trace of the harvest loop: per initial tile, the trace of
`process_tile`, followed by `time.sleep(1)` — except that an empty
`tile_features` hits `continue` and skips the sleep. -/
def harvestTrace (fetch : Box → Option Frame) (tiles : List Box) : List Ev :=
  tiles.flatMap fun b =>
    tileTrace fetch b 0 ++
      (if (process_tile fetch b 0).isEmpty then [] else [Ev.sleepEv])

/-- `pd.concat(all_features, ignore_index=True)`: rows are concatenated in
order; the column list is the union of the inputs' columns in first-seen
order. -/
def concatFrames (fs : List Frame) : Frame :=
  { cols := (fs.flatMap Frame.cols).dedup, rows := fs.flatMap Frame.rows }

/-- `df.drop(columns=c)`: remove column `c`, keep the rows. -/
def Frame.dropCol (f : Frame) (c : String) : Frame :=
  { cols := f.cols.filter (fun c2 => ¬ c2 = c), rows := f.rows }

/-- The export block: if `all_features` is empty, print a diagnostic and
write nothing (`none`); otherwise write the GeoJSON of the merged frame and
the CSV with the geometry column dropped when present
(`some (geojson, csv)`). -/
def runExport (all_features : List Frame) : Option (Frame × Frame) :=
  if all_features.isEmpty then none
  else
    let final_gdf := concatFrames all_features
    if "geometry" ∈ final_gdf.cols then
      some (final_gdf, final_gdf.dropCol "geometry")
    else
      some (final_gdf, final_gdf)

/-- The leaf tiles obtained by subdividing `b` to depth `d` with the
quartering of `process_tile`. -/
def leaves : ℕ → Box → List Box
  | 0, b => [b]
  | d + 1, b => (subBoxes b).flatMap (leaves d)

/-- Area of a box. -/
def Box.area (b : Box) : ℚ := (b.maxx - b.minx) * (b.maxy - b.miny)

/-- Closed-region membership of a point in a box. -/
def pointIn (p : ℚ × ℚ) (b : Box) : Prop :=
  b.minx ≤ p.1 ∧ p.1 ≤ b.maxx ∧ b.miny ≤ p.2 ∧ p.2 ≤ b.maxy

/-- Open-interior membership of a point in a box. -/
def interiorIn (p : ℚ × ℚ) (b : Box) : Prop :=
  b.minx < p.1 ∧ p.1 < b.maxx ∧ b.miny < p.2 ∧ p.2 < b.maxy

/-- Worst-case number of fetch calls with `r` remaining subdivision levels:
one call for this tile, plus four recursive subtrees. -/
def callBound : ℕ → ℕ
  | 0 => 1
  | r + 1 => 1 + 4 * callBound r

lemma subBoxes_explicit (b : Box) :
    subBoxes b = [subBox b 0 0, subBox b 0 1, subBox b 1 0, subBox b 1 1] := rfl

lemma subBoxes_length (b : Box) : (subBoxes b).length = 4 := rfl

lemma callBound_pos (r : ℕ) : 1 ≤ callBound r := by
  cases r <;> simp [callBound]

lemma fetchCalls_length_le (r : ℕ) :
    ∀ (fetch : Box → Option Frame) (b : Box) (d : ℕ), MAX_DEPTH - d ≤ r →
      (fetchCalls fetch b d).length ≤ callBound r := by
  induction r with
  | zero =>
    intro fetch b d hd
    have hd3 : MAX_DEPTH ≤ d := by omega
    rw [fetchCalls]
    cases hf : fetch b with
    | none => simp [callBound]
    | some gdf => simp [callBound, dif_pos (Or.inr hd3)]
  | succ r ih =>
    intro fetch b d hd
    rw [fetchCalls]
    split
    · simp
      have := callBound_pos (r + 1)
      omega
    · rename_i gdf hf
      split
      · simp
        have := callBound_pos (r + 1)
        omega
      · rename_i hc
        have hrec : ((subBoxes b).flatMap fun sb => fetchCalls fetch sb (d + 1)).length
            ≤ 4 * callBound r := by
          rw [List.length_flatMap]
          have hb : ∀ x ∈ (subBoxes b).map fun sb => (fetchCalls fetch sb (d + 1)).length,
              x ≤ callBound r := by
            intro x hx
            rcases List.mem_map.mp hx with ⟨sb, _, rfl⟩
            exact ih fetch sb (d + 1)
              (by simp only [MAX_DEPTH, not_or, not_le] at hc hd ⊢; omega)
          calc ((subBoxes b).map fun sb => (fetchCalls fetch sb (d + 1)).length).sum
              ≤ ((subBoxes b).map fun sb => (fetchCalls fetch sb (d + 1)).length).length
                  * callBound r := by
                have := List.sum_le_card_nsmul
                  ((subBoxes b).map fun sb => (fetchCalls fetch sb (d + 1)).length)
                  (callBound r) hb
                simpa using this
            _ = 4 * callBound r := by rw [List.length_map, subBoxes_length]
        simp only [List.length_cons, callBound]
        omega

lemma fetchCalls_depth_le (r : ℕ) :
    ∀ (fetch : Box → Option Frame) (b : Box) (d : ℕ), MAX_DEPTH - d ≤ r →
      d ≤ MAX_DEPTH → ∀ p ∈ fetchCalls fetch b d, p.2 ≤ MAX_DEPTH := by
  induction r with
  | zero =>
    intro fetch b d hd hdle p hp
    have hd3 : MAX_DEPTH ≤ d := by omega
    rw [fetchCalls] at hp
    rcases List.mem_cons.mp hp with rfl | hp2
    · exact hdle
    · revert hp2
      split
      · simp
      · split
        · simp
        · rename_i hc
          exact fun _ => absurd (Or.inr hd3) hc
  | succ r ih =>
    intro fetch b d hd hdle p hp
    rw [fetchCalls] at hp
    rcases List.mem_cons.mp hp with rfl | hp2
    · exact hdle
    · revert hp2
      split
      · simp
      · split
        · simp
        · rename_i gdf hf hc
          intro hp2
          rcases List.mem_flatMap.mp hp2 with ⟨sb, _, hmem⟩
          exact ih fetch sb (d + 1)
            (by simp only [MAX_DEPTH, not_or, not_le] at hc hd ⊢; omega)
            (by simp only [MAX_DEPTH, not_or, not_le] at hc hdle ⊢; omega) p hmem

lemma process_tile_eq_map (r : ℕ) :
    ∀ (fetch : Box → Option Frame) (b : Box) (d : ℕ), MAX_DEPTH - d ≤ r →
      process_tile fetch b d = (acceptedSets fetch b d).map Prod.fst := by
  induction r with
  | zero =>
    intro fetch b d hd
    have hd3 : MAX_DEPTH ≤ d := by omega
    rw [process_tile, acceptedSets]
    cases hf : fetch b with
    | none => simp
    | some gdf => simp [dif_pos (Or.inr hd3)]
  | succ r ih =>
    intro fetch b d hd
    rw [process_tile, acceptedSets]
    cases hf : fetch b with
    | none => simp
    | some gdf =>
      by_cases hc : gdf.rows.length < MAX_FEATURES ∨ MAX_DEPTH ≤ d
      · simp [dif_pos hc]
      · simp only [dif_neg hc]
        rw [List.map_flatMap]
        exact List.flatMap_congr fun sb _ =>
          ih fetch sb (d + 1)
            (by simp only [MAX_DEPTH, not_or, not_le] at hc hd ⊢; omega)

lemma acceptedSets_cap_or_depth (r : ℕ) :
    ∀ (fetch : Box → Option Frame) (b : Box) (d : ℕ), MAX_DEPTH - d ≤ r →
      d ≤ MAX_DEPTH → ∀ q ∈ acceptedSets fetch b d,
        q.1.rows.length < MAX_FEATURES ∨ q.2 = MAX_DEPTH := by
  induction r with
  | zero =>
    intro fetch b d hd hdle q hq
    have hd3 : d = MAX_DEPTH := by omega
    revert hq
    rw [acceptedSets]
    split
    · simp
    · split
      · rename_i hc
        intro hq
        rcases List.mem_singleton.mp hq with rfl
        exact Or.inr hd3
      · rename_i hc
        exact fun _ => absurd (Or.inr (le_of_eq hd3.symm)) hc
  | succ r ih =>
    intro fetch b d hd hdle q hq
    revert hq
    rw [acceptedSets]
    split
    · simp
    · split
      · rename_i hc
        intro hq
        rcases List.mem_singleton.mp hq with rfl
        rcases hc with hc | hc
        · exact Or.inl hc
        · exact Or.inr (le_antisymm hdle hc)
      · rename_i hc
        intro hq
        rcases List.mem_flatMap.mp hq with ⟨sb, _, hmem⟩
        exact ih fetch sb (d + 1)
          (by simp only [MAX_DEPTH, not_or, not_le] at hc hd ⊢; omega)
          (by simp only [MAX_DEPTH, not_or, not_le] at hc hdle ⊢; omega) q hmem

/-- C1: every RecordSet accepted into the final result (instrumented by
`acceptedSets`, of which `process_tile`'s output is the first projection)
either has fewer than `MAX_FEATURES` rows, or was accepted by a fetch at
depth exactly `MAX_DEPTH = 3`; no set with `count ≥ cap` is accepted at a
smaller depth. -/
theorem C1_accepted_below_cap_or_at_max_depth (fetch : Box → Option Frame) (bbox : Box) :
    process_tile fetch bbox 0 = (acceptedSets fetch bbox 0).map Prod.fst ∧
    ∀ q ∈ acceptedSets fetch bbox 0,
      q.1.rows.length < MAX_FEATURES ∨ q.2 = MAX_DEPTH := by
  constructor
  · exact process_tile_eq_map MAX_DEPTH fetch bbox 0 (Nat.sub_le _ _)
  · exact acceptedSets_cap_or_depth MAX_DEPTH fetch bbox 0 (Nat.sub_le _ _) (Nat.zero_le _)

/-- Witness for C1 at a fetcher that returns an empty frame for every box. -/
theorem C1_accepted_below_cap_or_at_max_depth_witness :
    ((Frame.mk [] []).restrictKeep, 0) ∈
        acceptedSets (fun _ => some (Frame.mk [] [])) (Box.mk 0 0 1 1) 0 ∧
      (((Frame.mk [] []).restrictKeep, 0).1.rows.length < MAX_FEATURES ∨
        ((Frame.mk [] []).restrictKeep, 0).2 = MAX_DEPTH) := by
  have hmem : ((Frame.mk [] []).restrictKeep, 0) ∈
      acceptedSets (fun _ => some (Frame.mk [] [])) (Box.mk 0 0 1 1) 0 := by
    rw [acceptedSets]
    simp [MAX_FEATURES]
  exact ⟨hmem,
    (C1_accepted_below_cap_or_at_max_depth (fun _ => some (Frame.mk [] []))
      (Box.mk 0 0 1 1)).2 _ hmem⟩

/-- C2: starting at depth 0, every `get_features` call made by `process_tile`
happens at depth ≤ `MAX_DEPTH = 3`, and at most `1 + 4 + 16 + 64 = 85` calls
are made, for every fetcher (including one that always returns the cap). -/
theorem C2_calls_bounded_by_depth_and_85 (fetch : Box → Option Frame) (bbox : Box) :
    (∀ p ∈ fetchCalls fetch bbox 0, p.2 ≤ MAX_DEPTH) ∧
      (fetchCalls fetch bbox 0).length ≤ 85 := by
  constructor
  · exact fetchCalls_depth_le MAX_DEPTH fetch bbox 0 (Nat.sub_le _ _) (Nat.zero_le _)
  · have h := fetchCalls_length_le MAX_DEPTH fetch bbox 0 (Nat.sub_le _ _)
    have h85 : callBound MAX_DEPTH = 85 := rfl
    omega

/-- Witness for C2 at a fetcher that fails on every box. -/
theorem C2_calls_bounded_by_depth_and_85_witness :
    (Box.mk 0 0 1 1, 0) ∈ fetchCalls (fun _ => none) (Box.mk 0 0 1 1) 0 ∧
      ((Box.mk 0 0 1 1, 0).2 ≤ MAX_DEPTH ∧
        (fetchCalls (fun _ => none) (Box.mk 0 0 1 1) 0).length ≤ 85) := by
  have hmem : (Box.mk 0 0 1 1, 0) ∈ fetchCalls (fun _ => none) (Box.mk 0 0 1 1) 0 := by
    rw [fetchCalls]
    simp
  exact ⟨hmem,
    (C2_calls_bounded_by_depth_and_85 (fun _ => none) (Box.mk 0 0 1 1)).1 _ hmem,
    (C2_calls_bounded_by_depth_and_85 (fun _ => none) (Box.mk 0 0 1 1)).2⟩

lemma foldl_collect (l : List Frame) (st : List Frame × ℕ) :
    l.foldl (fun s gdf =>
        if 0 < gdf.rows.length then (s.1 ++ [gdf], s.2 + gdf.rows.length) else s) st
      = (st.1 ++ l.filter (fun gdf => 0 < gdf.rows.length),
          st.2 + ((l.filter fun gdf => 0 < gdf.rows.length).map
            fun gdf => gdf.rows.length).sum) := by
  induction l generalizing st with
  | nil => simp
  | cons g l ih =>
    by_cases hg : 0 < g.rows.length
    · rw [List.foldl_cons, if_pos hg, ih]
      simp [List.filter_cons, hg, Nat.add_assoc]
    · rw [List.foldl_cons, if_neg hg, ih]
      simp [List.filter_cons, hg]

lemma collectStep_eq (fetch : Box → Option Frame) (st : List Frame × ℕ) (b : Box) :
    collectStep fetch st b
      = (st.1 ++ (process_tile fetch b 0).filter (fun gdf => 0 < gdf.rows.length),
          st.2 + (((process_tile fetch b 0).filter fun gdf => 0 < gdf.rows.length).map
            fun gdf => gdf.rows.length).sum) :=
  foldl_collect _ _

lemma harvest_eq (fetch : Box → Option Frame) (tiles : List Box) :
    harvest fetch tiles
      = (tiles.flatMap fun b => (process_tile fetch b 0).filter fun gdf => 0 < gdf.rows.length,
          ((tiles.flatMap fun b =>
                (process_tile fetch b 0).filter fun gdf => 0 < gdf.rows.length).map
            fun gdf => gdf.rows.length).sum) := by
  suffices h : ∀ (ts : List Box) (st : List Frame × ℕ),
      ts.foldl (collectStep fetch) st
        = (st.1 ++ ts.flatMap fun b =>
              (process_tile fetch b 0).filter fun gdf => 0 < gdf.rows.length,
            st.2 + ((ts.flatMap fun b =>
                  (process_tile fetch b 0).filter fun gdf => 0 < gdf.rows.length).map
              fun gdf => gdf.rows.length).sum) by
    simpa [harvest] using h tiles ([], 0)
  intro ts
  induction ts with
  | nil => simp
  | cons b ts ih =>
    intro st
    rw [List.foldl_cons, collectStep_eq, ih]
    simp [Nat.add_assoc]

lemma harvest_fst (fetch : Box → Option Frame) (tiles : List Box) :
    (harvest fetch tiles).1
      = tiles.flatMap fun b =>
          (process_tile fetch b 0).filter fun gdf => 0 < gdf.rows.length := by
  rw [harvest_eq]

lemma harvest_snd (fetch : Box → Option Frame) (tiles : List Box) :
    (harvest fetch tiles).2
      = ((harvest fetch tiles).1.map fun g => g.rows.length).sum := by
  rw [harvest_eq]

/-- C6: a failed fetch for a tile makes `process_tile` return the empty
sequence after a single fetch call (the subtree is abandoned, no
subdivision), and the whole harvest over a tile list containing the failed
tile equals the harvest with that tile removed: all other tiles' accepted
records still reach the final accumulation. -/
theorem C6_failed_fetch_isolated (fetch : Box → Option Frame) (b : Box)
    (l1 l2 : List Box) (hfail : fetch b = none) :
    process_tile fetch b 0 = [] ∧
      fetchCalls fetch b 0 = [(b, 0)] ∧
      harvest fetch (l1 ++ b :: l2) = harvest fetch (l1 ++ l2) := by
  have hproc : process_tile fetch b 0 = [] := by
    rw [process_tile, hfail]
  have hcalls : fetchCalls fetch b 0 = [(b, 0)] := by
    rw [fetchCalls, hfail]
  refine ⟨hproc, hcalls, ?_⟩
  rw [harvest, harvest, List.foldl_append, List.foldl_append, List.foldl_cons]
  congr 1
  simp only [collectStep, hproc, List.foldl_nil]

/-- Witness for C6: the failing tile is the spec's example bbox (0,45,1,46)
and one further tile follows it. -/
theorem C6_failed_fetch_isolated_witness :
    (fun _ : Box => (none : Option Frame)) (Box.mk 0 45 1 46) = none ∧
      (process_tile (fun _ => none) (Box.mk 0 45 1 46) 0 = [] ∧
        fetchCalls (fun _ => none) (Box.mk 0 45 1 46) 0 = [(Box.mk 0 45 1 46, 0)] ∧
        harvest (fun _ => none) ([] ++ Box.mk 0 45 1 46 :: [Box.mk 1 45 2 46])
          = harvest (fun _ => none) ([] ++ [Box.mk 1 45 2 46])) :=
  ⟨rfl, C6_failed_fetch_isolated (fun _ => none) (Box.mk 0 45 1 46) []
    [Box.mk 1 45 2 46] rfl⟩

/-- C10: at the end of the harvest loop over any tile list (and hence at
every prefix of the loop), `all_features` is exactly the list of non-empty
RecordSets returned by `process_tile` (empty ones are silently dropped),
`total_collected` equals the sum of their record counts, and the merged
frame produced by `pd.concat` has exactly `total_collected` records. -/
theorem C10_total_collected_invariant (fetch : Box → Option Frame) (tiles : List Box) :
    (harvest fetch tiles).1
        = (tiles.flatMap fun b =>
            (process_tile fetch b 0).filter fun gdf => 0 < gdf.rows.length) ∧
      (∀ g ∈ (harvest fetch tiles).1, 0 < g.rows.length) ∧
      (harvest fetch tiles).2 = ((harvest fetch tiles).1.map fun g => g.rows.length).sum ∧
      (concatFrames (harvest fetch tiles).1).rows.length = (harvest fetch tiles).2 := by
  refine ⟨harvest_fst fetch tiles, ?_, harvest_snd fetch tiles, ?_⟩
  · intro g hg
    rw [harvest_fst] at hg
    rcases List.mem_flatMap.mp hg with ⟨t, _, hgt⟩
    simpa using (List.mem_filter.mp hgt).2
  · rw [harvest_snd]
    simp only [concatFrames, List.length_flatMap]
    rfl

/-- C7: if no tile's processing produced any accepted record, the export
block writes no file and reports a diagnostic (`none`); if at least one
record was accepted, both the GeoJSON and the CSV are written. -/
theorem C7_empty_harvest_no_files (fetch : Box → Option Frame) (tiles : List Box) :
    ((∀ g ∈ tiles.flatMap (fun t => process_tile fetch t 0), g.rows.length = 0) →
        runExport (harvest fetch tiles).1 = none) ∧
      ((∃ g ∈ tiles.flatMap (fun t => process_tile fetch t 0), 0 < g.rows.length) →
        ∃ geo csv, runExport (harvest fetch tiles).1 = some (geo, csv)) := by
  constructor
  · intro hall
    have hnil : (harvest fetch tiles).1 = [] := by
      rw [harvest_fst]
      apply List.flatMap_eq_nil_iff.mpr
      intro t ht
      apply List.filter_eq_nil_iff.mpr
      intro g hg
      have := hall g (List.mem_flatMap.mpr ⟨t, ht, hg⟩)
      simp [this]
    rw [hnil]
    rfl
  · rintro ⟨g, hgmem, hgpos⟩
    have hne : (harvest fetch tiles).1 ≠ [] := by
      rw [harvest_fst]
      intro hnil
      rcases List.mem_flatMap.mp hgmem with ⟨t, ht, hgt⟩
      have hgin : g ∈ tiles.flatMap fun b =>
          (process_tile fetch b 0).filter fun gdf => 0 < gdf.rows.length :=
        List.mem_flatMap.mpr ⟨t, ht, List.mem_filter.mpr ⟨hgt, by simpa using hgpos⟩⟩
      rw [hnil] at hgin
      simp at hgin
    rcases hl : (harvest fetch tiles).1 with _ | ⟨a, l⟩
    · exact absurd hl hne
    · simp only [runExport, List.isEmpty_cons, Bool.false_eq_true, if_false]
      split
      · exact ⟨_, _, rfl⟩
      · exact ⟨_, _, rfl⟩

/-- Witness for C7: an always-failing fetcher gives an empty harvest and no
files; a fetcher returning one geometry row gives both files. -/
theorem C7_empty_harvest_no_files_witness :
    ((∀ g ∈ [Box.mk 0 0 1 1].flatMap
          (fun t => process_tile (fun _ => none) t 0), g.rows.length = 0) ∧
        runExport (harvest (fun _ => none) [Box.mk 0 0 1 1]).1 = none) ∧
      ((∃ g ∈ [Box.mk 0 0 1 1].flatMap
            (fun t => process_tile (fun _ => some (Frame.mk ["geometry"] [fun _ => ""])) t 0),
          0 < g.rows.length) ∧
        ∃ geo csv,
          runExport (harvest (fun _ => some (Frame.mk ["geometry"] [fun _ => ""]))
              [Box.mk 0 0 1 1]).1 = some (geo, csv)) := by
  have hproc0 : process_tile (fun _ => none) (Box.mk 0 0 1 1) 0 = [] := by
    rw [process_tile]
  have hproc1 : process_tile (fun _ => some (Frame.mk ["geometry"] [fun _ => ""]))
      (Box.mk 0 0 1 1) 0 = [(Frame.mk ["geometry"] [fun _ => ""]).restrictKeep] := by
    rw [process_tile]
    exact dif_pos (Or.inl (by simp [MAX_FEATURES]))
  have h1 : ∀ g ∈ [Box.mk 0 0 1 1].flatMap
      (fun t => process_tile (fun _ => none) t 0), g.rows.length = 0 := by
    simp [hproc0]
  have h2 : ∃ g ∈ [Box.mk 0 0 1 1].flatMap
      (fun t => process_tile (fun _ => some (Frame.mk ["geometry"] [fun _ => ""])) t 0),
      0 < g.rows.length := by
    refine ⟨(Frame.mk ["geometry"] [fun _ => ""]).restrictKeep, ?_, ?_⟩
    · simp [hproc1]
    · simp [Frame.restrictKeep]
  exact ⟨⟨h1, (C7_empty_harvest_no_files (fun _ => none) [Box.mk 0 0 1 1]).1 h1⟩,
    ⟨h2, (C7_empty_harvest_no_files (fun _ => some (Frame.mk ["geometry"] [fun _ => ""]))
      [Box.mk 0 0 1 1]).2 h2⟩⟩

/-- Witness for C10 at a fetcher returning a one-row frame. -/
theorem C10_total_collected_invariant_witness :
    (Frame.mk ["geometry"] [fun _ => ""]).restrictKeep ∈
        (harvest (fun _ => some (Frame.mk ["geometry"] [fun _ => ""])) [Box.mk 0 0 1 1]).1 ∧
      0 < (Frame.mk ["geometry"] [fun _ => ""]).restrictKeep.rows.length ∧
      (harvest (fun _ => some (Frame.mk ["geometry"] [fun _ => ""])) [Box.mk 0 0 1 1]).2
        = ((harvest (fun _ => some (Frame.mk ["geometry"] [fun _ => ""]))
            [Box.mk 0 0 1 1]).1.map fun g => g.rows.length).sum := by
  have hproc : process_tile (fun _ => some (Frame.mk ["geometry"] [fun _ => ""]))
      (Box.mk 0 0 1 1) 0 = [(Frame.mk ["geometry"] [fun _ => ""]).restrictKeep] := by
    rw [process_tile]
    exact dif_pos (Or.inl (by simp [MAX_FEATURES]))
  have hmem : (Frame.mk ["geometry"] [fun _ => ""]).restrictKeep ∈
      (harvest (fun _ => some (Frame.mk ["geometry"] [fun _ => ""])) [Box.mk 0 0 1 1]).1 := by
    rw [(C10_total_collected_invariant
      (fun _ => some (Frame.mk ["geometry"] [fun _ => ""])) [Box.mk 0 0 1 1]).1]
    simp [hproc, Frame.restrictKeep]
  exact ⟨hmem,
    (C10_total_collected_invariant
      (fun _ => some (Frame.mk ["geometry"] [fun _ => ""])) [Box.mk 0 0 1 1]).2.1 _ hmem,
    (C10_total_collected_invariant
      (fun _ => some (Frame.mk ["geometry"] [fun _ => ""])) [Box.mk 0 0 1 1]).2.2.1⟩

lemma tileTrace_no_sleep (r : ℕ) :
    ∀ (fetch : Box → Option Frame) (b : Box) (d : ℕ), MAX_DEPTH - d ≤ r →
      ∀ e ∈ tileTrace fetch b d, e ≠ Ev.sleepEv := by
  induction r with
  | zero =>
    intro fetch b d hd e he
    have hd3 : MAX_DEPTH ≤ d := by omega
    rw [tileTrace] at he
    rcases List.mem_cons.mp he with rfl | he2
    · simp
    · revert he2
      split
      · simp
      · split
        · simp
        · rename_i hc
          exact fun _ => absurd (Or.inr hd3) hc
  | succ r ih =>
    intro fetch b d hd e he
    rw [tileTrace] at he
    rcases List.mem_cons.mp he with rfl | he2
    · simp
    · revert he2
      split
      · simp
      · split
        · simp
        · rename_i gdf hf hc
          intro he2
          rcases List.mem_flatMap.mp he2 with ⟨sb, _, hmem⟩
          exact ih fetch sb (d + 1)
            (by simp only [MAX_DEPTH, not_or, not_le] at hc hd ⊢; omega) e hmem

lemma harvestTrace_sleep_count (fetch : Box → Option Frame) (tiles : List Box) :
    (harvestTrace fetch tiles).count Ev.sleepEv
      = (tiles.filter fun b => !(process_tile fetch b 0).isEmpty).length := by
  induction tiles with
  | nil => simp [harvestTrace]
  | cons b ts ih =>
    have hcons : harvestTrace fetch (b :: ts)
        = (tileTrace fetch b 0 ++
            (if (process_tile fetch b 0).isEmpty then [] else [Ev.sleepEv]))
          ++ harvestTrace fetch ts := by
      rw [harvestTrace, harvestTrace, List.flatMap_cons]
    rw [hcons, List.count_append, List.count_append]
    have hz : (tileTrace fetch b 0).count Ev.sleepEv = 0 :=
      List.count_eq_zero.mpr fun hmem =>
        tileTrace_no_sleep MAX_DEPTH fetch b 0 (Nat.sub_le _ _) _ hmem rfl
    rw [hz, ih]
    by_cases hp : (process_tile fetch b 0).isEmpty
    · simp [List.filter_cons, hp]
    · simp [List.filter_cons, hp, Nat.add_comm]

/-- C4 as stated is false: with a fetcher that fails on the single initial
tile, the tile's processing completes (one fetch, empty result), but the
`continue` on an empty `tile_features` skips `time.sleep(1)`, so the run's
trace contains no sleep event at all. -/
theorem C4_counterexample :
    harvestTrace (fun _ => none) [Box.mk 0 0 1 1] = [Ev.fetchEv (Box.mk 0 0 1 1)] ∧
      (harvestTrace (fun _ => none) [Box.mk 0 0 1 1]).count Ev.sleepEv = 0 ∧
      [Box.mk 0 0 1 1].length = 1 := by
  have hproc : process_tile (fun _ => none) (Box.mk 0 0 1 1) 0 = [] := by
    rw [process_tile]
  have htr : tileTrace (fun _ => none) (Box.mk 0 0 1 1) 0
      = [Ev.fetchEv (Box.mk 0 0 1 1)] := by
    rw [tileTrace]
  have h1 : harvestTrace (fun _ => none) [Box.mk 0 0 1 1]
      = [Ev.fetchEv (Box.mk 0 0 1 1)] := by
    rw [harvestTrace]
    simp [htr, hproc]
  refine ⟨h1, ?_, rfl⟩
  rw [h1]
  rfl

/-- C4 amended: no sleep ever occurs inside the recursive `process_tile`
trace, and the harvest loop sleeps exactly once per initial tile whose
`process_tile` result is non-empty — tiles whose processing returned the
empty sequence (e.g. a failed top-level fetch) hit `continue` and are not
followed by a delay. -/
theorem C4_sleep_after_productive_tiles_only (fetch : Box → Option Frame) (tiles : List Box) :
    (∀ (b : Box) (d : ℕ), ∀ e ∈ tileTrace fetch b d, e ≠ Ev.sleepEv) ∧
      (harvestTrace fetch tiles).count Ev.sleepEv
        = (tiles.filter fun b => !(process_tile fetch b 0).isEmpty).length := by
  constructor
  · intro b d
    exact tileTrace_no_sleep MAX_DEPTH fetch b d (Nat.sub_le _ _)
  · exact harvestTrace_sleep_count fetch tiles

/-- Witness for C4 (amended) at a fetcher returning a one-row frame: the one
initial tile is productive, so exactly one sleep occurs. -/
theorem C4_sleep_after_productive_tiles_only_witness :
    Ev.fetchEv (Box.mk 0 0 1 1) ∈
        tileTrace (fun _ => some (Frame.mk ["geometry"] [fun _ => ""])) (Box.mk 0 0 1 1) 0 ∧
      Ev.fetchEv (Box.mk 0 0 1 1) ≠ Ev.sleepEv ∧
      (harvestTrace (fun _ => some (Frame.mk ["geometry"] [fun _ => ""]))
          [Box.mk 0 0 1 1]).count Ev.sleepEv
        = ([Box.mk 0 0 1 1].filter fun b =>
            !(process_tile (fun _ => some (Frame.mk ["geometry"] [fun _ => ""])) b 0).isEmpty).length := by
  have hmem : Ev.fetchEv (Box.mk 0 0 1 1) ∈
      tileTrace (fun _ => some (Frame.mk ["geometry"] [fun _ => ""])) (Box.mk 0 0 1 1) 0 := by
    rw [tileTrace]
    exact List.mem_cons_self _ _
  exact ⟨hmem,
    (C4_sleep_after_productive_tiles_only (fun _ => some (Frame.mk ["geometry"] [fun _ => ""]))
      [Box.mk 0 0 1 1]).1 _ _ _ hmem,
    (C4_sleep_after_productive_tiles_only (fun _ => some (Frame.mk ["geometry"] [fun _ => ""]))
      [Box.mk 0 0 1 1]).2⟩

/-- C8: an accepted fetch result is returned as the single-element sequence
holding the frame restricted to the keep-list columns present in the source
(`gpu_doc_id`, `partition`, `nomfic`, `geometry`, in that order), rows
untouched; and for any non-empty accumulation the export writes the merged
frame plus a CSV with the same rows and the geometry column dropped when
present, all columns otherwise. -/
theorem C8_keep_list_restriction_and_csv (fetch : Box → Option Frame) (bbox : Box)
    (depth : ℕ) (gdf : Frame) (hf : fetch bbox = some gdf)
    (hacc : gdf.rows.length < MAX_FEATURES ∨ MAX_DEPTH ≤ depth) :
    process_tile fetch bbox depth
        = [Frame.mk (cols_to_keep.filter fun c => c ∈ gdf.cols) gdf.rows] ∧
      ∀ fs : List Frame, fs ≠ [] →
        ∃ geo csv, runExport fs = some (geo, csv) ∧ geo = concatFrames fs ∧
          csv.rows = geo.rows ∧
          csv.cols = if "geometry" ∈ geo.cols then
              geo.cols.filter (fun c => ¬ c = "geometry")
            else geo.cols := by
  constructor
  · rw [process_tile, hf]
    exact dif_pos hacc
  · intro fs hne
    rcases fs with _ | ⟨a, l⟩
    · exact absurd rfl hne
    · by_cases hg : "geometry" ∈ (concatFrames (a :: l)).cols
      · refine ⟨concatFrames (a :: l), (concatFrames (a :: l)).dropCol "geometry",
          ?_, rfl, rfl, ?_⟩
        · simp only [runExport, List.isEmpty_cons, Bool.false_eq_true, if_false]
          rw [if_pos hg]
        · rw [if_pos hg]
          rfl
      · refine ⟨concatFrames (a :: l), concatFrames (a :: l), ?_, rfl, rfl, ?_⟩
        · simp only [runExport, List.isEmpty_cons, Bool.false_eq_true, if_false]
          rw [if_neg hg]
        · rw [if_neg hg]

/-- Witness for C8: a fetch returning one row with columns
`["autre", "geometry", "partition"]` is accepted at depth 0. -/
theorem C8_keep_list_restriction_and_csv_witness :
    ((fun _ : Box => some (Frame.mk ["autre", "geometry", "partition"] [fun _ => ""]))
          (Box.mk 0 0 1 1)
        = some (Frame.mk ["autre", "geometry", "partition"] [fun _ => ""]) ∧
      ((Frame.mk ["autre", "geometry", "partition"] [fun _ => ""]).rows.length < MAX_FEATURES ∨
        MAX_DEPTH ≤ 0)) ∧
      process_tile (fun _ => some (Frame.mk ["autre", "geometry", "partition"] [fun _ => ""]))
          (Box.mk 0 0 1 1) 0
        = [Frame.mk (cols_to_keep.filter fun c =>
              c ∈ (Frame.mk ["autre", "geometry", "partition"] [fun _ => ""]).cols)
            (Frame.mk ["autre", "geometry", "partition"] [fun _ => ""]).rows] := by
  have hacc : (Frame.mk ["autre", "geometry", "partition"] [fun _ => ""]).rows.length
      < MAX_FEATURES ∨ MAX_DEPTH ≤ 0 := Or.inl (by simp [MAX_FEATURES])
  exact ⟨⟨rfl, hacc⟩,
    (C8_keep_list_restriction_and_csv
      (fun _ => some (Frame.mk ["autre", "geometry", "partition"] [fun _ => ""]))
      (Box.mk 0 0 1 1) 0 (Frame.mk ["autre", "geometry", "partition"] [fun _ => ""])
      rfl hacc).1⟩

lemma genAxis_mem (maxv size : ℚ) (hs : 0 < size) (x x0 : ℚ)
    (hmem : x0 ∈ genAxis maxv size hs x) : x ≤ x0 ∧ x0 < maxv := by
  induction x using genAxis.induct maxv size hs with
  | case1 x hlt ih =>
    rw [genAxis, if_pos hlt] at hmem
    rcases List.mem_cons.mp hmem with rfl | hmem2
    · exact ⟨le_refl _, hlt⟩
    · have h := ih hmem2
      exact ⟨by linarith, h.2⟩
  | case2 x hlt =>
    rw [genAxis, if_neg hlt] at hmem
    simp at hmem

lemma genAxis_length (maxv size : ℚ) (hs : 0 < size) (x : ℚ) :
    (genAxis maxv size hs x).length = (⌈(maxv - x) / size⌉).toNat := by
  induction x using genAxis.induct maxv size hs with
  | case1 x hlt ih =>
    rw [genAxis, if_pos hlt, List.length_cons, ih]
    have hpos : 0 < ⌈(maxv - x) / size⌉ := Int.ceil_pos.mpr (div_pos (by linarith) hs)
    have hstep : (maxv - (x + size)) / size = (maxv - x) / size - 1 := by
      field_simp
      ring
    rw [hstep, Int.ceil_sub_one]
    omega
  | case2 x hlt =>
    rw [genAxis, if_neg hlt]
    have hle : (maxv - x) / size ≤ 0 :=
      div_nonpos_of_nonpos_of_nonneg (by linarith) hs.le
    have hc : ⌈(maxv - x) / size⌉ ≤ 0 := by
      have := Int.ceil_le.mpr (show (maxv - x) / size ≤ ((0 : ℤ) : ℚ) by push_cast; linarith)
      simpa using this
    simp
    omega

lemma loopVar_eq (start size : ℚ) (n : ℕ) : loopVar start size n = start + n * size := by
  induction n with
  | zero => simp [loopVar]
  | succ n ih =>
    rw [loopVar, ih]
    push_cast
    ring

lemma genAxis_two : genAxis 2 1 one_pos 0 = [0, 1] := by
  rw [genAxis, if_pos (by norm_num)]
  norm_num
  rw [genAxis, if_pos (by norm_num)]
  norm_num
  rw [genAxis, if_neg (by norm_num)]

/-- C5: `generate_tiles` is a pure function of its inputs (same inputs, same
ordered output); every yielded tile lies within the bounds, its far corner
clipped to never exceed `maxx`/`maxy`; and on `(0,0,2,2)` with size 1 it
yields exactly (0,0,1,1), (0,1,1,2), (1,0,2,1), (1,1,2,2) in that order. -/
theorem C5_generate_tiles_deterministic_and_clipped :
    (∀ (minx miny maxx maxy size : ℚ) (h1 h2 : 0 < size),
        generate_tiles minx miny maxx maxy size h1
          = generate_tiles minx miny maxx maxy size h2) ∧
      (∀ (minx miny maxx maxy size : ℚ) (hs : 0 < size),
        ∀ t ∈ generate_tiles minx miny maxx maxy size hs,
          minx ≤ t.minx ∧ miny ≤ t.miny ∧ t.minx < maxx ∧ t.miny < maxy ∧
            t.minx < t.maxx ∧ t.miny < t.maxy ∧ t.maxx ≤ maxx ∧ t.maxy ≤ maxy) ∧
      generate_tiles 0 0 2 2 1 one_pos
        = [Box.mk 0 0 1 1, Box.mk 0 1 1 2, Box.mk 1 0 2 1, Box.mk 1 1 2 2] := by
  refine ⟨fun _ _ _ _ _ _ _ => rfl, ?_, ?_⟩
  · intro minx miny maxx maxy size hs t ht
    rw [generate_tiles] at ht
    rcases List.mem_flatMap.mp ht with ⟨x, hx, hmapped⟩
    rcases List.mem_map.mp hmapped with ⟨y, hy, rfl⟩
    have hxb := genAxis_mem maxx size hs minx x hx
    have hyb := genAxis_mem maxy size hs miny y hy
    refine ⟨hxb.1, hyb.1, hxb.2, hyb.2, ?_, ?_, min_le_right _ _, min_le_right _ _⟩
    · exact lt_min (by linarith) hxb.2
    · exact lt_min (by linarith) hyb.2
  · rw [generate_tiles, genAxis_two]
    norm_num [min_def, Box.mk.injEq]

/-- Witness for C5 at the spec's end-to-end example inputs. -/
theorem C5_generate_tiles_deterministic_and_clipped_witness :
    (0:ℚ) < 1 ∧
      Box.mk 0 0 1 1 ∈ generate_tiles 0 0 2 2 1 one_pos ∧
      ((0:ℚ) ≤ (Box.mk 0 0 1 1).minx ∧ (0:ℚ) ≤ (Box.mk 0 0 1 1).miny ∧
        (Box.mk 0 0 1 1).minx < 2 ∧ (Box.mk 0 0 1 1).miny < 2 ∧
        (Box.mk 0 0 1 1).minx < (Box.mk 0 0 1 1).maxx ∧
        (Box.mk 0 0 1 1).miny < (Box.mk 0 0 1 1).maxy ∧
        (Box.mk 0 0 1 1).maxx ≤ 2 ∧ (Box.mk 0 0 1 1).maxy ≤ 2) := by
  have hone : (0:ℚ) < 1 := one_pos
  have hmem : Box.mk 0 0 1 1 ∈ generate_tiles 0 0 2 2 1 one_pos := by
    rw [C5_generate_tiles_deterministic_and_clipped.2.2]
    exact List.mem_cons_self _ _
  exact ⟨hone, hmem,
    C5_generate_tiles_deterministic_and_clipped.2.1 0 0 2 2 1 one_pos _ hmem⟩

/-- C9 (implicit): with `size > 0` and a non-degenerate area the tiling loop
terminates and yields exactly `⌈(maxx-minx)/size⌉ * ⌈(maxy-miny)/size⌉`
tiles; with `size ≤ 0` and `minx < maxx` the loop guard `x < maxx` holds
after every iteration, so the enumeration never terminates. -/
theorem C9_generate_tiles_count_and_nontermination (minx miny maxx maxy size : ℚ) :
    (∀ hs : 0 < size, minx < maxx → miny < maxy →
        ((generate_tiles minx miny maxx maxy size hs).length : ℤ)
          = ⌈(maxx - minx) / size⌉ * ⌈(maxy - miny) / size⌉) ∧
      (size ≤ 0 → minx < maxx → ∀ n : ℕ, loopVar minx size n < maxx) := by
  constructor
  · intro hs hx hy
    have hlen : (generate_tiles minx miny maxx maxy size hs).length
        = (genAxis maxx size hs minx).length * (genAxis maxy size hs miny).length := by
      rw [generate_tiles, List.length_flatMap]
      simp only [Function.comp_def, List.length_map]
      rw [List.map_const', List.sum_replicate, smul_eq_mul]
    rw [hlen, genAxis_length, genAxis_length]
    have hx0 : 0 < ⌈(maxx - minx) / size⌉ := Int.ceil_pos.mpr (div_pos (by linarith) hs)
    have hy0 : 0 < ⌈(maxy - miny) / size⌉ := Int.ceil_pos.mpr (div_pos (by linarith) hs)
    push_cast [Int.toNat_of_nonneg (le_of_lt hx0), Int.toNat_of_nonneg (le_of_lt hy0)]
    rfl
  · intro hs hx n
    rw [loopVar_eq]
    have hns : (n : ℚ) * size ≤ 0 :=
      mul_nonpos_of_nonneg_of_nonpos (by positivity) hs
    linarith

/-- Witness for C9: tile count on (0,0,2,2) with size 1, and non-termination
of the loop variable with size 0. -/
theorem C9_generate_tiles_count_and_nontermination_witness :
    ((0:ℚ) < 1 ∧ (0:ℚ) < 2 ∧ (0:ℚ) < 2 ∧
        ((generate_tiles 0 0 2 2 1 one_pos).length : ℤ)
          = ⌈((2:ℚ) - 0) / 1⌉ * ⌈((2:ℚ) - 0) / 1⌉) ∧
      ((0:ℚ) ≤ 0 ∧ (0:ℚ) < 2 ∧ ∀ n : ℕ, loopVar 0 0 n < 2) := by
  refine ⟨⟨one_pos, by norm_num, by norm_num, ?_⟩, ⟨le_refl _, by norm_num, ?_⟩⟩
  · exact (C9_generate_tiles_count_and_nontermination 0 0 2 2 1).1 one_pos
      (by norm_num) (by norm_num)
  · exact (C9_generate_tiles_count_and_nontermination 0 0 2 2 0).2 (le_refl _) (by norm_num)

lemma subBox_mem_cases {b c : Box} (hc : c ∈ subBoxes b) :
    c = subBox b 0 0 ∨ c = subBox b 0 1 ∨ c = subBox b 1 0 ∨ c = subBox b 1 1 := by
  rw [subBoxes_explicit] at hc
  simpa using hc

lemma subBoxes_area (b : Box) : ∀ c ∈ subBoxes b, c.area = b.area / 4 := by
  intro c hc
  rcases subBox_mem_cases hc with rfl | rfl | rfl | rfl <;>
    · simp only [subBox, Box.area, TILE_DIVISION_FACTOR]
      push_cast
      ring

lemma pointIn_subBoxes (b : Box) (p : ℚ × ℚ) :
    pointIn p b ↔ ∃ c ∈ subBoxes b, pointIn p c := by
  constructor
  · rintro ⟨h1, h2, h3, h4⟩
    by_cases hx : p.1 ≤ b.minx + (b.maxx - b.minx) / 2
    · by_cases hy : p.2 ≤ b.miny + (b.maxy - b.miny) / 2
      · refine ⟨subBox b 0 0, by rw [subBoxes_explicit]; simp, ?_⟩
        simp only [pointIn, subBox, TILE_DIVISION_FACTOR]
        push_cast
        refine ⟨by linarith, by linarith, by linarith, by linarith⟩
      · refine ⟨subBox b 0 1, by rw [subBoxes_explicit]; simp, ?_⟩
        simp only [pointIn, subBox, TILE_DIVISION_FACTOR]
        push_cast
        refine ⟨by linarith, by linarith, by linarith, by linarith⟩
    · by_cases hy : p.2 ≤ b.miny + (b.maxy - b.miny) / 2
      · refine ⟨subBox b 1 0, by rw [subBoxes_explicit]; simp, ?_⟩
        simp only [pointIn, subBox, TILE_DIVISION_FACTOR]
        push_cast
        refine ⟨by linarith, by linarith, by linarith, by linarith⟩
      · refine ⟨subBox b 1 1, by rw [subBoxes_explicit]; simp, ?_⟩
        simp only [pointIn, subBox, TILE_DIVISION_FACTOR]
        push_cast
        refine ⟨by linarith, by linarith, by linarith, by linarith⟩
  · rintro ⟨c, hc, hp⟩
    rcases subBox_mem_cases hc with rfl | rfl | rfl | rfl <;>
      · simp only [pointIn, subBox, TILE_DIVISION_FACTOR] at hp ⊢
        push_cast at hp
        obtain ⟨a1, a2, a3, a4⟩ := hp
        refine ⟨by linarith, by linarith, by linarith, by linarith⟩

lemma pointIn_leaves (d : ℕ) : ∀ (b : Box) (p : ℚ × ℚ),
    pointIn p b ↔ ∃ c ∈ leaves d b, pointIn p c := by
  induction d with
  | zero =>
    intro b p
    simp [leaves]
  | succ d ih =>
    intro b p
    rw [leaves]
    constructor
    · intro hp
      rcases (pointIn_subBoxes b p).mp hp with ⟨c, hc, hpc⟩
      rcases (ih c p).mp hpc with ⟨c2, hc2, hpc2⟩
      exact ⟨c2, List.mem_flatMap.mpr ⟨c, hc, hc2⟩, hpc2⟩
    · rintro ⟨c2, hmem, hpc2⟩
      rcases List.mem_flatMap.mp hmem with ⟨c, hc, hc2⟩
      exact (pointIn_subBoxes b p).mpr ⟨c, hc, (ih c p).mpr ⟨c2, hc2, hpc2⟩⟩

lemma leaves_length (d : ℕ) : ∀ b : Box, (leaves d b).length = 4 ^ d := by
  induction d with
  | zero =>
    intro b
    simp [leaves]
  | succ d ih =>
    intro b
    rw [leaves, List.length_flatMap, subBoxes_explicit]
    simp [ih]
    ring

lemma subBoxes_nested (b : Box) (hx : b.minx ≤ b.maxx) (hy : b.miny ≤ b.maxy) :
    ∀ c ∈ subBoxes b,
      (b.minx ≤ c.minx ∧ c.maxx ≤ b.maxx ∧ b.miny ≤ c.miny ∧ c.maxy ≤ b.maxy)
        ∧ (c.minx ≤ c.maxx ∧ c.miny ≤ c.maxy) := by
  intro c hc
  rcases subBox_mem_cases hc with rfl | rfl | rfl | rfl <;>
    · refine ⟨⟨?_, ?_, ?_, ?_⟩, ?_, ?_⟩ <;>
        · simp only [subBox, TILE_DIVISION_FACTOR]
          push_cast
          linarith

lemma leaves_nested (d : ℕ) : ∀ b : Box, b.minx ≤ b.maxx → b.miny ≤ b.maxy →
    ∀ c ∈ leaves d b,
      (b.minx ≤ c.minx ∧ c.maxx ≤ b.maxx ∧ b.miny ≤ c.miny ∧ c.maxy ≤ b.maxy)
        ∧ (c.minx ≤ c.maxx ∧ c.miny ≤ c.maxy) := by
  induction d with
  | zero =>
    intro b hx hy c hc
    simp only [leaves, List.mem_singleton] at hc
    subst hc
    exact ⟨⟨le_refl _, le_refl _, le_refl _, le_refl _⟩, hx, hy⟩
  | succ d ih =>
    intro b hx hy c hc
    rw [leaves] at hc
    rcases List.mem_flatMap.mp hc with ⟨m, hm, hcm⟩
    obtain ⟨⟨n1, n2, n3, n4⟩, p1, p2⟩ := subBoxes_nested b hx hy m hm
    obtain ⟨⟨q1, q2, q3, q4⟩, r1, r2⟩ := ih m p1 p2 c hcm
    exact ⟨⟨le_trans n1 q1, le_trans q2 n2, le_trans n3 q3, le_trans q4 n4⟩, r1, r2⟩

lemma interiorIn_mono {c b : Box}
    (h : b.minx ≤ c.minx ∧ c.maxx ≤ b.maxx ∧ b.miny ≤ c.miny ∧ c.maxy ≤ b.maxy)
    {p : ℚ × ℚ} (hp : interiorIn p c) : interiorIn p b := by
  obtain ⟨h1, h2, h3, h4⟩ := h
  obtain ⟨k1, k2, k3, k4⟩ := hp
  exact ⟨lt_of_le_of_lt h1 k1, lt_of_lt_of_le k2 h2,
    lt_of_le_of_lt h3 k3, lt_of_lt_of_le k4 h4⟩

lemma subBox_disjoint_x (b : Box) (j1 j2 : ℕ) :
    ∀ p : ℚ × ℚ, ¬(interiorIn p (subBox b 0 j1) ∧ interiorIn p (subBox b 1 j2)) := by
  rintro p ⟨hp1, hp2⟩
  simp only [interiorIn, subBox, TILE_DIVISION_FACTOR] at hp1 hp2
  push_cast at hp1 hp2
  obtain ⟨a1, a2, a3, a4⟩ := hp1
  obtain ⟨b1, b2, b3, b4⟩ := hp2
  linarith

lemma subBox_disjoint_y (b : Box) (i : ℕ) :
    ∀ p : ℚ × ℚ, ¬(interiorIn p (subBox b i 0) ∧ interiorIn p (subBox b i 1)) := by
  rintro p ⟨hp1, hp2⟩
  simp only [interiorIn, subBox, TILE_DIVISION_FACTOR] at hp1 hp2
  push_cast at hp1 hp2
  obtain ⟨a1, a2, a3, a4⟩ := hp1
  obtain ⟨b1, b2, b3, b4⟩ := hp2
  linarith

lemma subBoxes_pairwise_disjoint (b : Box) :
    (subBoxes b).Pairwise
      (fun c1 c2 => ∀ p : ℚ × ℚ, ¬(interiorIn p c1 ∧ interiorIn p c2)) := by
  rw [subBoxes_explicit]
  refine List.pairwise_cons.mpr ⟨?_, List.pairwise_cons.mpr ⟨?_,
    List.pairwise_cons.mpr ⟨?_, List.pairwise_singleton _ _⟩⟩⟩
  · intro c hc
    rcases List.mem_cons.mp hc with rfl | hc
    · exact subBox_disjoint_y b 0
    rcases List.mem_cons.mp hc with rfl | hc
    · exact subBox_disjoint_x b 0 0
    rcases List.mem_singleton.mp hc with rfl
    exact subBox_disjoint_x b 0 1
  · intro c hc
    rcases List.mem_cons.mp hc with rfl | hc
    · exact subBox_disjoint_x b 1 0
    rcases List.mem_singleton.mp hc with rfl
    exact subBox_disjoint_x b 1 1
  · intro c hc
    rcases List.mem_singleton.mp hc with rfl
    exact subBox_disjoint_y b 1

lemma leaves_pairwise_disjoint (d : ℕ) : ∀ b : Box, b.minx ≤ b.maxx → b.miny ≤ b.maxy →
    (leaves d b).Pairwise
      (fun c1 c2 => ∀ p : ℚ × ℚ, ¬(interiorIn p c1 ∧ interiorIn p c2)) := by
  induction d with
  | zero =>
    intro b _ _
    simp [leaves]
  | succ d ih =>
    intro b hx hy
    rw [leaves, show (subBoxes b).flatMap (leaves d) = ((subBoxes b).map (leaves d)).flatten
      from rfl]
    apply List.pairwise_flatten.mpr
    constructor
    · intro l hl
      rcases List.mem_map.mp hl with ⟨c, hc, rfl⟩
      obtain ⟨_, p1, p2⟩ := subBoxes_nested b hx hy c hc
      exact ih c p1 p2
    · apply List.pairwise_map.mpr
      refine List.Pairwise.imp_of_mem ?_ (subBoxes_pairwise_disjoint b)
      intro c1 c2 hc1 hc2 hdisj x hx1 y hy1 p hcontr
      obtain ⟨hn1, p1, p2⟩ := subBoxes_nested b hx hy c1 hc1
      obtain ⟨hn2, q1, q2⟩ := subBoxes_nested b hx hy c2 hc2
      have hxn := leaves_nested d c1 p1 p2 x hx1
      have hyn := leaves_nested d c2 q1 q2 y hy1
      exact hdisj p ⟨interiorIn_mono hxn.1 hcontr.1, interiorIn_mono hyn.1 hcontr.2⟩

/-- C3: a subdivided tile is split into 4 equal-area sub-boxes by bisecting
both axes; for any proper region, subdividing to depth `d` gives `4^d`
leaves whose union is exactly the region (no gaps) and whose interiors are
pairwise disjoint (overlap only on shared boundary lines). -/
theorem C3_subdivision_partitions_region (b : Box) (d : ℕ)
    (hx : b.minx < b.maxx) (hy : b.miny < b.maxy) :
    (∀ c ∈ subBoxes b, c.area = b.area / 4) ∧
      (subBoxes b).length = 4 ∧
      (leaves d b).length = 4 ^ d ∧
      (∀ p : ℚ × ℚ, pointIn p b ↔ ∃ c ∈ leaves d b, pointIn p c) ∧
      (leaves d b).Pairwise
        (fun c1 c2 => ∀ p : ℚ × ℚ, ¬(interiorIn p c1 ∧ interiorIn p c2)) :=
  ⟨subBoxes_area b, subBoxes_length b, leaves_length d b,
    fun p => pointIn_leaves d b p, leaves_pairwise_disjoint d b hx.le hy.le⟩

/-- Witness for C3 at the unit square, one subdivision level. -/
theorem C3_subdivision_partitions_region_witness :
    ((Box.mk 0 0 1 1).minx < (Box.mk 0 0 1 1).maxx ∧
        (Box.mk 0 0 1 1).miny < (Box.mk 0 0 1 1).maxy) ∧
      ((∀ c ∈ subBoxes (Box.mk 0 0 1 1), c.area = (Box.mk 0 0 1 1).area / 4) ∧
        (subBoxes (Box.mk 0 0 1 1)).length = 4 ∧
        (leaves 1 (Box.mk 0 0 1 1)).length = 4 ^ 1 ∧
        (∀ p : ℚ × ℚ, pointIn p (Box.mk 0 0 1 1) ↔
          ∃ c ∈ leaves 1 (Box.mk 0 0 1 1), pointIn p c) ∧
        (leaves 1 (Box.mk 0 0 1 1)).Pairwise
          (fun c1 c2 => ∀ p : ℚ × ℚ, ¬(interiorIn p c1 ∧ interiorIn p c2))) :=
  ⟨⟨by norm_num, by norm_num⟩,
    C3_subdivision_partitions_region (Box.mk 0 0 1 1) 1 (by norm_num) (by norm_num)⟩
